import Mathlib

/-!
Shallow embedding of the hacky-fabric versioned world-state store and
simulation session (Go sources: storage/sim.go, storage/db.go,
committer/storage.go, committer/committer.go), together with theorems
checking the natural-language specification against the code.

Byte slices (`[]byte`) are modelled as `Option (List Nat)`: `none` is Go's
nil slice, `some l` a slice with contents `l`.  Go maps with string keys
are modelled as association lists with unique keys; `mapInsert` mirrors
`m[k] = v`.
-/

namespace HackyFabric

abbrev Bytes := List Nat

/-- Go struct `storage.WriteRecord` (db.go): one immutable row of the version history.
`Namespace`/`Key`/`BlockNum`/`TxNum` form the primary key. -/
structure WriteRecord where
  Namespace : String
  Key : String
  BlockNum : Nat
  TxNum : Nat
  Value : Option Bytes
  IsDelete : Bool
  TxID : String
deriving Repr, DecidableEq

/-- Go struct `storage.Version` (sim.go). -/
structure Version where
  BlockNum : Nat
  TxNum : Nat
deriving Repr, DecidableEq

/-- Go struct `storage.KVRead` (sim.go): `Version = none` mirrors the nil pointer
("key absent at read time"). -/
structure KVRead where
  Key : String
  Version : Option Version
deriving Repr, DecidableEq

/-- Go struct `storage.KVWrite` (sim.go). -/
structure KVWrite where
  Key : String
  IsDelete : Bool
  Value : Option Bytes
deriving Repr, DecidableEq

/-- Go map update `m[k] = v` on an association-list model: replaces the
binding if the key is present, appends it otherwise. -/
def mapInsert {α : Type} (m : List (String × α)) (k : String) (v : α) :
    List (String × α) :=
  match m with
  | [] => [(k, v)]
  | (k', v') :: rest =>
    if k' = k then (k, v) :: rest else (k', v') :: mapInsert rest k v

/-- Go map lookup `m[k]`. -/
def mapLookup {α : Type} (m : List (String × α)) (k : String) : Option α :=
  match m with
  | [] => none
  | (k', v') :: rest => if k' = k then some v' else mapLookup rest k

/-- Go `len(v)` on a byte slice: a nil slice has length 0. -/
def bytesLen (v : Option Bytes) : Nat := (v.getD []).length

/-- Go struct `storage.SimulationStore` (sim.go).  The Go field `namespace` is a Lean
keyword, so it is called `ns` here; the `store` field (a `ReadStore`
interface value) is passed to `getState` as a function instead. -/
structure SimulationStore where
  readOwnWrites : Bool
  ns : String
  blockNum : Nat
  reads : List (String × KVRead)
  writes : List (String × KVWrite)
deriving Repr, DecidableEq

/-- The `ReadStore` interface of sim.go: `Get(namespace, key, blockNum)`
returning `(*WriteRecord, error)`. -/
abbrev ReadStore := String → String → Nat → Except String (Option WriteRecord)

/-- Method `SimulationStore.GetState` (sim.go).  Returns the pair
`(value-or-error, updated session)`.

Faithful to the source, including its slip: the function declares
`var val []byte`, never assigns it, and ends with `return val, nil`, so
every return through the store-query path yields a nil value — even when a
live record was found (in which case the read marker with the record's
version *is* recorded). -/
def getState (store : ReadStore) (s : SimulationStore) (key : String) :
    Except String (Option Bytes) × SimulationStore :=
  match (if s.readOwnWrites then mapLookup s.writes key else none) with
  | some w =>
    -- read your own write: no read recorded
    if w.IsDelete then (.ok none, s) else (.ok w.Value, s)
  | none =>
    match store s.ns key s.blockNum with
    | .error e => (.error e, s)
    | .ok record =>
      match record with
      | some r =>
        if r.IsDelete then
          -- fabric doesn't add a read marker if the value is deleted
          (.ok none, s)
        else
          -- `val` is never assigned in the source, hence `none` here
          (.ok none,
            { s with reads :=
                mapInsert s.reads key ⟨key, some ⟨r.BlockNum, r.TxNum⟩⟩ })
      | none =>
        (.ok none, { s with reads := mapInsert s.reads key ⟨key, none⟩ })

/-- Method `SimulationStore.PutState` (sim.go): rejects an empty key and an
empty/nil value (both with the source's literal message), otherwise
stores `KVWrite{Key, Value}` (IsDelete false). -/
def putState (s : SimulationStore) (key : String) (value : Option Bytes) :
    Except String Unit × SimulationStore :=
  if key.length = 0 then (.error "key is empty", s)
  else if bytesLen value = 0 then (.error "key is empty", s)
  else (.ok (), { s with writes := mapInsert s.writes key ⟨key, false, value⟩ })

/-- Method `SimulationStore.DelState` (sim.go): unconditionally stores
`KVWrite{Key, IsDelete: true}`. -/
def delState (s : SimulationStore) (key : String) :
    Except String Unit × SimulationStore :=
  (.ok (), { s with writes := mapInsert s.writes key ⟨key, true, none⟩ })

/-- Go struct `storage.ReadWriteSet` (sim.go). -/
structure ReadWriteSet where
  Reads : List KVRead
  Writes : List KVWrite
deriving Repr, DecidableEq

/-- Method `SimulationStore.Result` (sim.go): collects the map values. -/
def SimulationStore.Result (s : SimulationStore) : ReadWriteSet :=
  ⟨s.reads.map Prod.snd, s.writes.map Prod.snd⟩

/-!
### The versioned store (storage/db.go, duplicated in committer/storage.go)

The per-channel persistent state consists of the version-history table and
this channel's `channel_progress` row (`none` when no row exists yet;
`LastProcessedBlock` then reads 0).
-/

/-- One channel's persistent state. -/
structure DbState where
  history : List WriteRecord
  progress : Option Nat
deriving Repr, DecidableEq

/-- The table's primary key `(namespace, key, version_block, version_tx)`. -/
def samePK (a b : WriteRecord) : Bool :=
  decide (a.Namespace = b.Namespace) && decide (a.Key = b.Key) &&
    decide (a.BlockNum = b.BlockNum) && decide (a.TxNum = b.TxNum)

/-- Whether the history already holds a row with `w`'s primary key. -/
def containsPK (h : List WriteRecord) (w : WriteRecord) : Bool :=
  h.any (fun r => samePK r w)

/-- The statement `INSERT ... ON CONFLICT (namespace, key, version_block,
version_tx) DO NOTHING` (db.go): a duplicate primary key is silently ignored. -/
def insertIgnore (h : List WriteRecord) (w : WriteRecord) : List WriteRecord :=
  if containsPK h w then h else h ++ [w]

/-- Method `VersionedDB.MarkProcessed` (db.go): upsert into `channel_progress`
guarded by `excluded.last_block > channel_progress.last_block`; with no
existing row the insert always takes effect. -/
def markProcessed (blockNum : Nat) (s : DbState) : DbState :=
  match s.progress with
  | none => { s with progress := some blockNum }
  | some p => { s with progress := some (if blockNum > p then blockNum else p) }

/-- Method `VersionedDB.LastProcessedBlock` (db.go): 0 when no row exists. -/
def lastProcessedBlock (s : DbState) : Nat := s.progress.getD 0

/-- Fault injection for `BatchInsert`: which of its fallible steps fails.
`execFailsAt = some i` makes the i-th `stmt.Exec` fail. -/
structure FaultSpec where
  beginFails : Bool
  prepareFails : Bool
  execFailsAt : Option Nat
  progressFails : Bool
  commitFails : Bool
deriving Repr, DecidableEq

/-- The run in which every step succeeds. -/
def noFault : FaultSpec := ⟨false, false, none, false, false⟩

/-- The `for _, w := range writes { stmt.Exec(...) }` loop of `BatchInsert`,
executing against the transaction-local history `h`. -/
def execInserts (failAt : Option Nat) (i : Nat) (ws : List WriteRecord)
    (h : List WriteRecord) : Except String (List WriteRecord) :=
  match ws with
  | [] => .ok h
  | w :: rest =>
    if failAt = some i then .error "batch insert exec"
    else execInserts failAt (i + 1) rest (insertIgnore h w)

/-- Folding all inserts into the history (the effect of a fault-free loop). -/
def insertAll (h : List WriteRecord) (ws : List WriteRecord) : List WriteRecord :=
  ws.foldl insertIgnore h

/-- Method `VersionedDB.BatchInsert` (db.go): empty input is a successful no-op;
otherwise begin a transaction, prepare the insert statement, execute one
insert per record, run `MarkProcessed(tx, writes[0].BlockNum)` inside the
same transaction, and commit.  Every error path returns before `Commit`,
and the deferred `tx.Rollback()` discards the transaction-local work, so
those paths leave the state `s` unchanged.  Result: `(some err, s)` on
failure, `(none, newState)` on success. -/
def batchInsert (f : FaultSpec) (ws : List WriteRecord) (s : DbState) :
    Option String × DbState :=
  match ws with
  | [] => (none, s)
  | w0 :: _ =>
    if f.beginFails then (some "begin batch insert", s)
    else if f.prepareFails then (some "prepare batch insert", s)
    else
      match execInserts f.execFailsAt 0 ws s.history with
      | .error e => (some e, s)
      | .ok h =>
        if f.progressFails then (some "update last block exec", s)
        else if f.commitFails then (some "commit batch insert", s)
        else (none, markProcessed w0.BlockNum ⟨h, s.progress⟩)

/-- The `WHERE namespace = $1 AND key = $2 AND version_block <= $3` filter
of `VersionedDB.Get` (db.go). -/
def matchesGet (ns key : String) (lastBlock : Nat) (r : WriteRecord) : Bool :=
  decide (r.Namespace = ns) && decide (r.Key = key) &&
    decide (r.BlockNum ≤ lastBlock)

/-- Strict `(blockNum, txNum)` lexicographic version order — the
`ORDER BY version_block DESC, version_tx DESC` sort key. -/
def versionLt (a b : WriteRecord) : Prop :=
  a.BlockNum < b.BlockNum ∨ (a.BlockNum = b.BlockNum ∧ a.TxNum < b.TxNum)

instance (a b : WriteRecord) : Decidable (versionLt a b) :=
  inferInstanceAs (Decidable (_ ∨ _))

/-- Keep the version-wise later of an accumulator and the next row. -/
def pickLater (acc : Option WriteRecord) (r : WriteRecord) : Option WriteRecord :=
  match acc with
  | none => some r
  | some b => if versionLt b r then some r else some b

/-- Method `VersionedDB.Get` (db.go): among the rows matching
`(namespace, key, version_block <= lastBlock)`, the one first in
`ORDER BY version_block DESC, version_tx DESC` — i.e. the version-wise
maximum — or `none` (`sql.ErrNoRows` mapped to `(nil, nil)`). -/
def get (s : DbState) (ns key : String) (lastBlock : Nat) : Option WriteRecord :=
  (s.history.filter (matchesGet ns key lastBlock)).foldl pickLater none

/-!
### `Committer.WaitUntilSynced` (committer/committer.go)

The poll loop is driven by a list of externally observed events: either the
context is done (`ctxDone`), or a ticker tick fires and the two height
queries resolve.  `tick remote loc`: `remote = none` means
`PeerBlockHeight()` failed (a transport error), `loc = none` means the
local `BlockHeight()` failed.  `backoff` is in seconds (initially 1).  The
source doubles the backoff on each remote-height failure and returns the
fetch error once the doubled backoff reaches 30 seconds; a successful
fetch resets it to 1.
-/

inductive SyncEvent where
  | ctxDone
  | tick (remote : Option Nat) (loc : Option Nat)
deriving Repr, DecidableEq

inductive SyncOutcome where
  | timeout
  | synced
  | fetchError
  | localError
  | pending
deriving Repr, DecidableEq

/-- Method `Committer.WaitUntilSynced` (committer.go), run over a finite event
trace; `pending` stands for a loop still waiting when the trace ends. -/
def waitUntilSynced : List SyncEvent → Nat → SyncOutcome
  | [], _ => .pending
  | .ctxDone :: _, _ => .timeout
  | .tick none _ :: rest, backoff =>
    if 30 ≤ backoff * 2 then .fetchError
    else waitUntilSynced rest (backoff * 2)
  | .tick (some _) none :: _, _ => .localError
  | .tick (some remote) (some loc) :: rest, _ =>
    if remote ≤ loc then .synced else waitUntilSynced rest 1

/-!
### Session write-sequence model (for the last-write-wins property)
-/

/-- One `PutState`/`DelState` call on a fixed key. -/
inductive SimOp where
  | put (value : Option Bytes)
  | del
deriving Repr, DecidableEq

/-- Whether the call passes `PutState`'s validation (a delete always does). -/
def validOp : SimOp → Bool
  | .put v => bytesLen v != 0
  | .del => true

/-- Apply one call to the session (an invalid put leaves it unchanged,
mirroring `PutState`'s early error return). -/
def applySimOp (key : String) (s : SimulationStore) (op : SimOp) : SimulationStore :=
  match op with
  | .put v => (putState s key v).2
  | .del => (delState s key).2

/-- Apply a whole call sequence in order. -/
def applySimOps (key : String) (s : SimulationStore) (ops : List SimOp) :
    SimulationStore :=
  ops.foldl (applySimOp key) s

/-- The `KVWrite` a call stores for `key` when it succeeds. -/
def lastEffect (key : String) (op : SimOp) : KVWrite :=
  match op with
  | .put v => ⟨key, false, v⟩
  | .del => ⟨key, true, none⟩

/-!
### Association-list (Go map) lemmas
-/

theorem mapLookup_mapInsert_self {α : Type} (m : List (String × α)) (k : String)
    (v : α) : mapLookup (mapInsert m k v) k = some v := by
  induction m with
  | nil => simp [mapInsert, mapLookup]
  | cons p rest ih =>
    obtain ⟨k', v'⟩ := p
    by_cases h : k' = k
    · simp [mapInsert, mapLookup, h]
    · simp [mapInsert, mapLookup, h, ih]

theorem mapInsert_keys {α : Type} (m : List (String × α)) (k : String) (v : α) :
    (mapInsert m k v).map Prod.fst =
      if k ∈ m.map Prod.fst then m.map Prod.fst
      else m.map Prod.fst ++ [k] := by
  induction m with
  | nil => simp [mapInsert]
  | cons p rest ih =>
    obtain ⟨k', v'⟩ := p
    by_cases h : k' = k
    · subst h; simp [mapInsert]
    · have h' : ¬ k = k' := fun hh => h hh.symm
      simp only [mapInsert, if_neg h, List.map_cons, ih, List.mem_cons, h',
        false_or]
      split <;> simp

theorem mapInsert_keys_nodup {α : Type} (m : List (String × α)) (k : String)
    (v : α) (h : (m.map Prod.fst).Nodup) :
    ((mapInsert m k v).map Prod.fst).Nodup := by
  rw [mapInsert_keys]
  split
  · exact h
  · next hk => simp [List.nodup_append, h, hk]

theorem mapInsert_coherent {α : Type} (f : α → String) (m : List (String × α))
    (k : String) (v : α) (hm : ∀ p ∈ m, f p.2 = p.1) (hv : f v = k) :
    ∀ p ∈ mapInsert m k v, f p.2 = p.1 := by
  induction m with
  | nil => simp [mapInsert, hv]
  | cons q rest ih =>
    obtain ⟨k', v'⟩ := q
    by_cases h : k' = k
    · intro p hp
      simp only [mapInsert, if_pos h, List.mem_cons] at hp
      rcases hp with hp | hp
      · simp [hp, hv]
      · exact hm p (List.mem_cons_of_mem _ hp)
    · intro p hp
      simp only [mapInsert, if_neg h, List.mem_cons] at hp
      rcases hp with hp | hp
      · exact hm p (by simp [hp])
      · exact ih (fun q hq => hm q (List.mem_cons_of_mem _ hq)) p hp

/-!
### Session helper lemmas
-/

theorem applySimOp_writes (key : String) (s : SimulationStore) (op : SimOp) :
    (applySimOp key s op).writes = s.writes ∨
      ∃ w, w.Key = key ∧
        (applySimOp key s op).writes = mapInsert s.writes key w := by
  cases op with
  | put v =>
    by_cases h1 : key.length = 0
    · left; simp [applySimOp, putState, h1]
    · by_cases h2 : bytesLen v = 0
      · left; simp [applySimOp, putState, h1, h2]
      · right; exact ⟨⟨key, false, v⟩, rfl, by simp [applySimOp, putState, h1, h2]⟩
  | del => right; exact ⟨⟨key, true, none⟩, rfl, by simp [applySimOp, delState]⟩

theorem applySimOp_writes_nodup (key : String) (s : SimulationStore) (op : SimOp)
    (h : (s.writes.map Prod.fst).Nodup) :
    ((applySimOp key s op).writes.map Prod.fst).Nodup := by
  rcases applySimOp_writes key s op with hw | ⟨w, _, hw⟩
  · rw [hw]; exact h
  · rw [hw]; exact mapInsert_keys_nodup _ _ _ h

theorem applySimOp_writes_coherent (key : String) (s : SimulationStore) (op : SimOp)
    (h : ∀ p ∈ s.writes, KVWrite.Key p.2 = p.1) :
    ∀ p ∈ (applySimOp key s op).writes, KVWrite.Key p.2 = p.1 := by
  rcases applySimOp_writes key s op with hw | ⟨w, hwk, hw⟩
  · rw [hw]; exact h
  · rw [hw]; exact mapInsert_coherent _ _ _ _ h hwk

theorem applySimOps_writes_nodup (key : String) (ops : List SimOp)
    (s : SimulationStore) (h : (s.writes.map Prod.fst).Nodup) :
    ((applySimOps key s ops).writes.map Prod.fst).Nodup := by
  induction ops generalizing s with
  | nil => exact h
  | cons op rest ih =>
    exact ih (applySimOp key s op) (applySimOp_writes_nodup key s op h)

theorem applySimOps_writes_coherent (key : String) (ops : List SimOp)
    (s : SimulationStore) (h : ∀ p ∈ s.writes, KVWrite.Key p.2 = p.1) :
    ∀ p ∈ (applySimOps key s ops).writes, KVWrite.Key p.2 = p.1 := by
  induction ops generalizing s with
  | nil => exact h
  | cons op rest ih =>
    exact ih (applySimOp key s op) (applySimOp_writes_coherent key s op h)

/-!
### Claim theorems for the simulation session
-/

/-- The concrete failing input for the lost-value slip in `GetState`:
a live record at block 10, tx 1, value "v1" (bytes 118, 49). -/
def liveRecordExample : WriteRecord := ⟨"ns", "k1", 10, 1, some [118, 49], false, "tx1"⟩

/-- A store whose every lookup finds `liveRecordExample`. -/
def liveReadStoreExample : ReadStore := fun _ _ _ => .ok (some liveRecordExample)

/-- A fresh default session (`readOwnWrites` off) at snapshot 100. -/
def sessionExample : SimulationStore := ⟨false, "ns", 100, [], []⟩

/-- C1: `GetState` on a key with a live record at block 10, tx 1, value
"v1" *does* record exactly the read `KVRead{k1, {10,1}}`, but returns a nil
value instead of "v1": the source declares `var val []byte` and never
assigns `record.Value` to it.  This contradicts the function's own doc
comment ("result -> store read version, return value, nil") and the unit
test `TestGetState`, whose "key exists" case wants `[]byte("v1")`. -/
theorem getState_live_record_drops_value :
    getState liveReadStoreExample sessionExample "k1" =
      (.ok none,
        { sessionExample with reads := [("k1", ⟨"k1", some ⟨10, 1⟩⟩)] }) ∧
    liveRecordExample.IsDelete = false ∧
    liveRecordExample.Value = some [118, 49] ∧
    (none : Option Bytes) ≠ some [118, 49] := by
  refine ⟨rfl, rfl, rfl, by decide⟩

/-- C2: when the session consults the store (the read-own-writes
short-circuit does not fire), a latest record with `isDelete` yields
`(nil, nil)` and leaves the session — in particular its read set — exactly
unchanged, while a missing record yields `(nil, nil)` and records a KVRead
with an absent version. -/
theorem getState_deleted_no_trace_missing_absent
    (store : ReadStore) (s : SimulationStore) (key : String)
    (hshort : s.readOwnWrites = false ∨ mapLookup s.writes key = none) :
    (∀ r, store s.ns key s.blockNum = .ok (some r) → r.IsDelete = true →
      getState store s key = (.ok none, s)) ∧
    (store s.ns key s.blockNum = .ok none →
      getState store s key =
        (.ok none, { s with reads := mapInsert s.reads key ⟨key, none⟩ })) := by
  have hnone : (if s.readOwnWrites then mapLookup s.writes key else none) = none := by
    rcases hshort with h | h <;> simp [h]
  constructor
  · intro r hr hdel
    simp [getState, hnone, hr, hdel]
  · intro hr
    simp [getState, hnone, hr]

/-- Witness for C2 at concrete inputs: a store holding only a deleted
record leaves the fresh session untouched, and an empty store records an
absent-version read. -/
theorem getState_deleted_no_trace_missing_absent_witness :
    getState (fun _ _ _ => .ok (some ⟨"ns", "k1", 10, 1, none, true, "tx1"⟩))
        sessionExample "k1" = (.ok none, sessionExample) ∧
    getState (fun _ _ _ => .ok none) sessionExample "k1" =
      (.ok none, { sessionExample with reads := [("k1", ⟨"k1", none⟩)] }) := by
  constructor
  · exact (getState_deleted_no_trace_missing_absent
      (fun _ _ _ => .ok (some ⟨"ns", "k1", 10, 1, none, true, "tx1"⟩))
      sessionExample "k1" (Or.inl rfl)).1 _ rfl rfl
  · exact (getState_deleted_no_trace_missing_absent
      (fun _ _ _ => .ok none) sessionExample "k1" (Or.inl rfl)).2 rfl

/-- C7: within one session, only the last `PutState`/`DelState` call on a
key survives in the write set: after any call sequence ending in a valid
call `op`, the writes map binds `key` to exactly `op`'s KVWrite; and the
write set produced by `Result` mentions each key at most once (its keys
stay duplicate-free whenever the session started that way, as a fresh
session does). -/
theorem sim_last_write_wins (s : SimulationStore) (key : String)
    (ops : List SimOp) (op : SimOp)
    (hkey : key.length ≠ 0) (hop : validOp op = true) :
    mapLookup (applySimOps key s (ops ++ [op])).writes key =
      some (lastEffect key op) ∧
    ((s.writes.map Prod.fst).Nodup →
      ((applySimOps key s (ops ++ [op])).writes.map Prod.fst).Nodup) ∧
    ((∀ p ∈ s.writes, KVWrite.Key p.2 = p.1) → (s.writes.map Prod.fst).Nodup →
      (((applySimOps key s (ops ++ [op])).Result.Writes).map KVWrite.Key).Nodup) := by
  have happ : applySimOps key s (ops ++ [op]) =
      applySimOp key (applySimOps key s ops) op := by
    simp [applySimOps, List.foldl_append]
  refine ⟨?_, ?_, ?_⟩
  · rw [happ]
    cases op with
    | put v =>
      have hv : bytesLen v ≠ 0 := by
        simpa [validOp] using hop
      simp [applySimOp, putState, hkey, hv, lastEffect, mapLookup_mapInsert_self]
    | del =>
      simp [applySimOp, delState, lastEffect, mapLookup_mapInsert_self]
  · intro hnd
    exact applySimOps_writes_nodup key (ops ++ [op]) s hnd
  · intro hco hnd
    have h1 := applySimOps_writes_nodup key (ops ++ [op]) s hnd
    have h2 := applySimOps_writes_coherent key (ops ++ [op]) s hco
    have : ((applySimOps key s (ops ++ [op])).Result.Writes).map KVWrite.Key =
        (applySimOps key s (ops ++ [op])).writes.map Prod.fst := by
      simp only [SimulationStore.Result, List.map_map]
      exact List.map_congr_left (fun p hp => h2 p hp)
    rw [this]
    exact h1

/-- Witness for C7: put "v1" then put "v2" on "x" leaves `{x, v2}`; put
then delete on "y" leaves `{y, isDelete}`; the fresh session's write-set
keys stay duplicate-free. -/
theorem sim_last_write_wins_witness :
    mapLookup (applySimOps "x" sessionExample
        ([SimOp.put (some [118, 49])] ++ [SimOp.put (some [118, 50])])).writes "x" =
      some ⟨"x", false, some [118, 50]⟩ ∧
    mapLookup (applySimOps "y" sessionExample
        ([SimOp.put (some [118])] ++ [SimOp.del])).writes "y" =
      some ⟨"y", true, none⟩ ∧
    (((applySimOps "x" sessionExample
        ([SimOp.put (some [118, 49])] ++ [SimOp.put (some [118, 50])])).Result.Writes).map
          KVWrite.Key).Nodup := by
  refine ⟨?_, ?_, ?_⟩
  · exact (sim_last_write_wins sessionExample "x" [SimOp.put (some [118, 49])]
      (SimOp.put (some [118, 50])) (by decide) (by decide)).1
  · exact (sim_last_write_wins sessionExample "y" [SimOp.put (some [118])]
      SimOp.del (by decide) (by decide)).1
  · exact (sim_last_write_wins sessionExample "x" [SimOp.put (some [118, 49])]
      (SimOp.put (some [118, 50])) (by decide) (by decide)).2.2
      (by simp [sessionExample]) (by simp [sessionExample])

/-- C8: `PutState` fails exactly when the key is empty or the value is
empty/nil, and a failing call leaves the session (hence its writes map)
unchanged; `DelState` never fails, for any key including the empty one. -/
theorem putState_validation_delState_total (s : SimulationStore) (key : String)
    (value : Option Bytes) :
    ((∃ e, (putState s key value).1 = Except.error e) ↔
      key.length = 0 ∨ bytesLen value = 0) ∧
    ((putState s key value).1 = Except.ok () ↔
      key.length ≠ 0 ∧ bytesLen value ≠ 0) ∧
    (key.length = 0 ∨ bytesLen value = 0 → (putState s key value).2 = s) ∧
    (∀ t : SimulationStore, ∀ k : String, (delState t k).1 = Except.ok ()) := by
  by_cases h1 : key.length = 0 <;> by_cases h2 : bytesLen value = 0 <;>
    simp [putState, delState, h1, h2]

/-- Witness for C8: `PutState("", v)` and `PutState("z", nil)` leave the
fresh session unchanged, and `DelState("")` succeeds. -/
theorem putState_validation_delState_total_witness :
    (putState sessionExample "" (some [118])).2 = sessionExample ∧
    (putState sessionExample "z" none).2 = sessionExample ∧
    (delState sessionExample "").1 = Except.ok () := by
  refine ⟨?_, ?_, ?_⟩
  · exact (putState_validation_delState_total sessionExample "" (some [118])).2.2.1
      (Or.inl (by decide))
  · exact (putState_validation_delState_total sessionExample "z" none).2.2.1
      (Or.inr (by decide))
  · exact (putState_validation_delState_total sessionExample "z" none).2.2.2
      sessionExample ""

/-!
### Versioned-store helper lemmas
-/

theorem execInserts_ok (fa : Option Nat) (ws : List WriteRecord) :
    ∀ i h h', execInserts fa i ws h = .ok h' → h' = insertAll h ws := by
  induction ws with
  | nil =>
    intro i h h' hh
    simp only [execInserts] at hh
    cases hh
    rfl
  | cons w rest ih =>
    intro i h h' hh
    simp only [execInserts] at hh
    split at hh
    · cases hh
    · exact ih (i + 1) (insertIgnore h w) h' hh

theorem execInserts_noFault (ws : List WriteRecord) :
    ∀ i h, execInserts none i ws h = .ok (insertAll h ws) := by
  induction ws with
  | nil => intro i h; rfl
  | cons w rest ih => intro i h; simp only [execInserts, insertAll]; exact ih _ _

theorem batchInsert_noFault_cons (w0 : WriteRecord) (rest : List WriteRecord)
    (s : DbState) :
    batchInsert noFault (w0 :: rest) s =
      (none, markProcessed w0.BlockNum
        ⟨insertAll s.history (w0 :: rest), s.progress⟩) := by
  simp [batchInsert, noFault, execInserts_noFault]

theorem markProcessed_history (b : Nat) (t : DbState) :
    (markProcessed b t).history = t.history := by
  obtain ⟨h, p⟩ := t
  cases p <;> simp [markProcessed]

theorem markProcessed_progress_eq (b : Nat) (h h' : List WriteRecord)
    (p : Option Nat) :
    (markProcessed b ⟨h, p⟩).progress = (markProcessed b ⟨h', p⟩).progress := by
  cases p <;> rfl

theorem lastProcessedBlock_markProcessed (b : Nat) (t : DbState) :
    lastProcessedBlock (markProcessed b t) = max (lastProcessedBlock t) b := by
  obtain ⟨h, p⟩ := t
  cases p with
  | none => simp [markProcessed, lastProcessedBlock]
  | some q =>
    simp only [markProcessed, lastProcessedBlock, Option.getD_some]
    split <;> omega

theorem markProcessed_noop (b : Nat) (h : List WriteRecord) (p : Nat)
    (hbp : b ≤ p) : markProcessed b ⟨h, some p⟩ = ⟨h, some p⟩ := by
  have hnot : ¬ b > p := by omega
  simp [markProcessed, hnot]

theorem markProcessed_idem (b : Nat) (t : DbState) :
    markProcessed b (markProcessed b t) = markProcessed b t := by
  obtain ⟨h, p⟩ := t
  cases p with
  | none => simp [markProcessed]
  | some q =>
    simp only [markProcessed]
    split <;> simp

theorem samePK_refl (w : WriteRecord) : samePK w w = true := by
  simp [samePK]

theorem containsPK_insertIgnore_self (h : List WriteRecord) (w : WriteRecord) :
    containsPK (insertIgnore h w) w = true := by
  unfold insertIgnore
  split
  · next hc => exact hc
  · simp [containsPK, List.any_append, samePK_refl]

theorem containsPK_insertIgnore_mono (h : List WriteRecord) (v w : WriteRecord)
    (hv : containsPK h v = true) : containsPK (insertIgnore h w) v = true := by
  unfold insertIgnore
  split
  · exact hv
  · unfold containsPK at hv ⊢
    rw [List.any_append]
    simp [hv]

theorem containsPK_insertAll_mono (ws : List WriteRecord) :
    ∀ h v, containsPK h v = true → containsPK (insertAll h ws) v = true := by
  induction ws with
  | nil => intro h v hv; exact hv
  | cons w rest ih =>
    intro h v hv
    exact ih (insertIgnore h w) v (containsPK_insertIgnore_mono h v w hv)

theorem insertAll_contains (ws : List WriteRecord) :
    ∀ h, ∀ w ∈ ws, containsPK (insertAll h ws) w = true := by
  induction ws with
  | nil => intro h w hw; cases hw
  | cons w0 rest ih =>
    intro h w hw
    rcases List.mem_cons.mp hw with hw | hw
    · subst hw
      exact containsPK_insertAll_mono rest (insertIgnore h w) w
        (containsPK_insertIgnore_self h w)
    · exact ih (insertIgnore h w0) w hw

theorem insertIgnore_of_contains (h : List WriteRecord) (w : WriteRecord)
    (hc : containsPK h w = true) : insertIgnore h w = h := by
  simp [insertIgnore, hc]

theorem insertAll_of_contains (ws : List WriteRecord) :
    ∀ h, (∀ w ∈ ws, containsPK h w = true) → insertAll h ws = h := by
  induction ws with
  | nil => intro h _; rfl
  | cons w rest ih =>
    intro h hall
    show insertAll (insertIgnore h w) rest = h
    rw [insertIgnore_of_contains h w (hall w (by simp))]
    exact ih h (fun v hv => hall v (by simp [hv]))

theorem insertAll_idem (h : List WriteRecord) (ws : List WriteRecord) :
    insertAll (insertAll h ws) ws = insertAll h ws :=
  insertAll_of_contains ws _ (insertAll_contains ws h)

/-- Lemma: `BatchInsert` on a non-empty batch either fails leaving the state
unchanged, or succeeds with all inserts applied and the progress advanced
in the same unit. -/
theorem batchInsert_cases (f : FaultSpec) (w0 : WriteRecord)
    (rest : List WriteRecord) (s : DbState) :
    (∃ e, batchInsert f (w0 :: rest) s = (some e, s)) ∨
    batchInsert f (w0 :: rest) s =
      (none, markProcessed w0.BlockNum
        ⟨insertAll s.history (w0 :: rest), s.progress⟩) := by
  by_cases hb : f.beginFails
  · exact Or.inl ⟨"begin batch insert", by simp [batchInsert, hb]⟩
  · by_cases hp : f.prepareFails
    · exact Or.inl ⟨"prepare batch insert", by simp [batchInsert, hb, hp]⟩
    · rcases hex : execInserts f.execFailsAt 0 (w0 :: rest) s.history with e | h
      · exact Or.inl ⟨e, by simp [batchInsert, hb, hp, hex]⟩
      · have hh : h = insertAll s.history (w0 :: rest) :=
          execInserts_ok f.execFailsAt (w0 :: rest) 0 s.history h hex
        by_cases hpr : f.progressFails
        · exact Or.inl ⟨"update last block exec", by simp [batchInsert, hb, hp, hex, hpr]⟩
        · by_cases hc : f.commitFails
          · exact Or.inl ⟨"commit batch insert", by simp [batchInsert, hb, hp, hex, hpr, hc]⟩
          · exact Or.inr (by simp [batchInsert, hb, hp, hex, hpr, hc, hh])

/-!
### Version-order and fold lemmas for `Get`
-/

theorem versionLt_irrefl (a : WriteRecord) : ¬ versionLt a a := by
  simp [versionLt]

theorem versionLt_trans {a b c : WriteRecord}
    (h1 : versionLt a b) (h2 : versionLt b c) : versionLt a c := by
  simp only [versionLt] at h1 h2 ⊢
  omega

theorem versionLt_of_lt_of_not_lt {a b c : WriteRecord}
    (h1 : versionLt a b) (h2 : ¬ versionLt c b) : versionLt a c := by
  simp only [versionLt] at h1 h2 ⊢
  omega

theorem foldl_pickLater_ne_none (l : List WriteRecord) :
    ∀ b : WriteRecord, l.foldl pickLater (some b) ≠ none := by
  induction l with
  | nil => intro b h; cases h
  | cons r rest ih =>
    intro b
    show rest.foldl pickLater (pickLater (some b) r) ≠ none
    simp only [pickLater]
    split
    · exact ih r
    · exact ih b

theorem foldl_pickLater_spec (l : List WriteRecord) :
    ∀ acc : Option WriteRecord, ∀ r : WriteRecord,
      l.foldl pickLater acc = some r →
        (r ∈ l ∨ acc = some r) ∧
        (∀ q ∈ l, ¬ versionLt r q) ∧
        (∀ a, acc = some a → ¬ versionLt r a) := by
  induction l with
  | nil =>
    intro acc r h
    refine ⟨Or.inr h, by simp, ?_⟩
    intro a ha
    have hra : some r = some a := h.symm.trans ha
    cases hra
    exact versionLt_irrefl r
  | cons w rest ih =>
    intro acc r h
    have h' : rest.foldl pickLater (pickLater acc w) = some r := h
    obtain ⟨hmem, hmax, hacc⟩ := ih (pickLater acc w) r h'
    cases acc with
    | none =>
      have hpick : pickLater none w = some w := rfl
      have hrw : ¬ versionLt r w := hacc w hpick
      refine ⟨?_, ?_, by intro a ha; cases ha⟩
      · rcases hmem with hm | hm
        · exact Or.inl (List.mem_cons_of_mem _ hm)
        · rw [hpick] at hm
          cases hm
          exact Or.inl (List.mem_cons_self _ _)
      · intro q hq
        rcases List.mem_cons.mp hq with hq | hq
        · subst hq; exact hrw
        · exact hmax q hq
    | some b =>
      by_cases hbw : versionLt b w
      · have hpick : pickLater (some b) w = some w := by
          simp [pickLater, hbw]
        have hrw : ¬ versionLt r w := hacc w hpick
        refine ⟨?_, ?_, ?_⟩
        · rcases hmem with hm | hm
          · exact Or.inl (List.mem_cons_of_mem _ hm)
          · rw [hpick] at hm
            cases hm
            exact Or.inl (List.mem_cons_self _ _)
        · intro q hq
          rcases List.mem_cons.mp hq with hq | hq
          · subst hq; exact hrw
          · exact hmax q hq
        · intro a ha
          cases ha
          intro hra
          exact hrw (versionLt_trans hra hbw)
      · have hpick : pickLater (some b) w = some b := by
          simp [pickLater, hbw]
        have hrb : ¬ versionLt r b := hacc b hpick
        refine ⟨?_, ?_, ?_⟩
        · rcases hmem with hm | hm
          · exact Or.inl (List.mem_cons_of_mem _ hm)
          · rw [hpick] at hm
            exact Or.inr hm
        · intro q hq
          rcases List.mem_cons.mp hq with hq | hq
          · subst hq
            intro hrq
            exact hrb (versionLt_of_lt_of_not_lt hrq hbw)
          · exact hmax q hq
        · intro a ha
          cases ha
          exact hrb

/-!
### Store operation sequences (for progress monotonicity)
-/

/-- One mutating store call: a standalone `MarkProcessed` (whose SQL may
fail, leaving the row untouched) or a `BatchInsert` with fault injection. -/
inductive StoreOp where
  | mark (blockNum : Nat) (fails : Bool)
  | batch (f : FaultSpec) (ws : List WriteRecord)
deriving Repr, DecidableEq

def applyStoreOp (s : DbState) (op : StoreOp) : DbState :=
  match op with
  | .mark b fails => if fails then s else markProcessed b s
  | .batch f ws => (batchInsert f ws s).2

def applyStoreOps (s : DbState) (ops : List StoreOp) : DbState :=
  ops.foldl applyStoreOp s

theorem lastProcessedBlock_le_applyStoreOp (s : DbState) (op : StoreOp) :
    lastProcessedBlock s ≤ lastProcessedBlock (applyStoreOp s op) := by
  cases op with
  | mark b fails =>
    cases fails with
    | true => simp [applyStoreOp]
    | false =>
      simp only [applyStoreOp, Bool.false_eq_true, if_false,
        lastProcessedBlock_markProcessed]
      omega
  | batch f ws =>
    cases ws with
    | nil => simp [applyStoreOp, batchInsert]
    | cons w0 rest =>
      rcases batchInsert_cases f w0 rest s with ⟨e, he⟩ | he
      · simp [applyStoreOp, he]
      · simp only [applyStoreOp, he, lastProcessedBlock_markProcessed]
        have : lastProcessedBlock
            (⟨insertAll s.history (w0 :: rest), s.progress⟩ : DbState) =
            lastProcessedBlock s := rfl
        rw [this]
        omega

/-!
### Claim theorems for the versioned store
-/

/-- C3: `BatchInsert` on an empty collection is a successful no-op; on any
failure it returns the error and leaves the state (history and progress)
exactly as before; on success the new state is all inserts applied plus
the progress update, as one unit. -/
theorem batchInsert_noop_rollback_atomic (f : FaultSpec)
    (ws : List WriteRecord) (s : DbState) :
    (ws = [] → batchInsert f ws s = (none, s)) ∧
    (∀ e t, batchInsert f ws s = (some e, t) → t = s) ∧
    (∀ w0 rest, ws = w0 :: rest → (batchInsert f ws s).1 = none →
      (batchInsert f ws s).2 =
        markProcessed w0.BlockNum ⟨insertAll s.history ws, s.progress⟩) := by
  refine ⟨?_, ?_, ?_⟩
  · intro h; subst h; rfl
  · intro e t h
    cases ws with
    | nil =>
      simp only [batchInsert] at h
      cases h
    | cons w0 rest =>
      rcases batchInsert_cases f w0 rest s with ⟨e', he⟩ | he
      · rw [he] at h
        exact (Prod.mk.injEq _ _ _ _ ▸ h).2.symm
      · rw [he] at h
        cases h
  · intro w0 rest hws h1
    subst hws
    rcases batchInsert_cases f w0 rest s with ⟨e', he⟩ | he
    · rw [he] at h1
      cases h1
    · rw [he]

/-- Witness for C3 at concrete inputs: the empty batch is a no-op; a batch
whose second insert fails rolls back completely; a fault-free batch lands
both records and the progress row. -/
theorem batchInsert_noop_rollback_atomic_witness :
    batchInsert noFault [] (⟨[], none⟩ : DbState) = (none, ⟨[], none⟩) ∧
    (batchInsert ⟨false, false, some 1, false, false⟩
        [⟨"ns", "k", 2, 0, none, false, "t1"⟩, ⟨"ns", "k", 3, 0, none, false, "t2"⟩]
        (⟨[], none⟩ : DbState)).2 = ⟨[], none⟩ ∧
    (batchInsert noFault
        [⟨"ns", "k", 2, 0, none, false, "t1"⟩, ⟨"ns", "k", 3, 0, none, false, "t2"⟩]
        (⟨[], none⟩ : DbState)).2 =
      markProcessed 2
        ⟨insertAll ([] : List WriteRecord)
          [⟨"ns", "k", 2, 0, none, false, "t1"⟩, ⟨"ns", "k", 3, 0, none, false, "t2"⟩],
          none⟩ := by
  refine ⟨?_, ?_, ?_⟩
  · exact (batchInsert_noop_rollback_atomic noFault [] ⟨[], none⟩).1 rfl
  · exact (batchInsert_noop_rollback_atomic ⟨false, false, some 1, false, false⟩
      [⟨"ns", "k", 2, 0, none, false, "t1"⟩, ⟨"ns", "k", 3, 0, none, false, "t2"⟩]
      ⟨[], none⟩).2.1 "batch insert exec" ⟨[], none⟩ (by decide)
  · exact (batchInsert_noop_rollback_atomic noFault
      [⟨"ns", "k", 2, 0, none, false, "t1"⟩, ⟨"ns", "k", 3, 0, none, false, "t2"⟩]
      ⟨[], none⟩).2.2 _ _ rfl (by decide)

/-- C4: `LastProcessedBlock` never decreases across any sequence of
`MarkProcessed`/`BatchInsert` calls; `MarkProcessed(b)` leaves an existing
row untouched unless `b` is strictly greater, and sets the value to `b`
when it is strictly greater. -/
theorem lastProcessedBlock_monotone (ops : List StoreOp) (s : DbState) :
    lastProcessedBlock s ≤ lastProcessedBlock (applyStoreOps s ops) ∧
    (∀ b h p, b ≤ p → markProcessed b ⟨h, some p⟩ = ⟨h, some p⟩) ∧
    (∀ b t, lastProcessedBlock t < b →
      lastProcessedBlock (markProcessed b t) = b) := by
  refine ⟨?_, ?_, ?_⟩
  · induction ops generalizing s with
    | nil => exact Nat.le_refl _
    | cons op rest ih =>
      exact Nat.le_trans (lastProcessedBlock_le_applyStoreOp s op)
        (ih (applyStoreOp s op))
  · intro b h p hbp
    exact markProcessed_noop b h p hbp
  · intro b t hlt
    rw [lastProcessedBlock_markProcessed]
    omega

/-- Witness for C4: marking block 5 then block 3 leaves the value at 5,
both via the general statement and evaluated on the concrete trace. -/
theorem lastProcessedBlock_monotone_witness :
    markProcessed 3 (⟨[], some 5⟩ : DbState) = ⟨[], some 5⟩ ∧
    lastProcessedBlock
      (applyStoreOps ⟨[], none⟩ [StoreOp.mark 5 false, StoreOp.mark 3 false]) = 5 ∧
    lastProcessedBlock (⟨[], some 5⟩ : DbState) ≤ lastProcessedBlock
      (applyStoreOps ⟨[], some 5⟩ [StoreOp.mark 3 false]) := by
  refine ⟨?_, by rfl, ?_⟩
  · exact (lastProcessedBlock_monotone [] ⟨[], none⟩).2.1 3 [] 5 (by decide)
  · exact (lastProcessedBlock_monotone [StoreOp.mark 3 false] ⟨[], some 5⟩).1

/-- C5: a fault-free `BatchInsert` is idempotent — replaying the same
batch leaves the version history and the progress row exactly as after
the first call, and still succeeds (duplicate primary keys are silently
ignored). -/
theorem batchInsert_idempotent (ws : List WriteRecord) (s : DbState) :
    batchInsert noFault ws (batchInsert noFault ws s).2 =
      (none, (batchInsert noFault ws s).2) := by
  cases ws with
  | nil => rfl
  | cons w0 rest =>
    rw [batchInsert_noFault_cons w0 rest s]
    rw [batchInsert_noFault_cons w0 rest
      (markProcessed w0.BlockNum ⟨insertAll s.history (w0 :: rest), s.progress⟩)]
    rw [markProcessed_history]
    rw [insertAll_idem]
    obtain ⟨h, p⟩ := s
    cases p with
    | none =>
      simp [markProcessed]
    | some q =>
      simp only [markProcessed]
      split <;> simp

/-- C6: `Get` returns a record matching the namespace, key and version
ceiling that no other matching record exceeds in `(blockNum, txNum)`
order, and returns "not found" exactly when no record matches. -/
theorem get_returns_latest (s : DbState) (ns key : String) (lb : Nat) :
    (get s ns key lb = none ↔
      s.history.filter (matchesGet ns key lb) = []) ∧
    (∀ r, get s ns key lb = some r →
      (r ∈ s.history ∧ matchesGet ns key lb r = true) ∧
      ∀ q ∈ s.history, matchesGet ns key lb q = true → ¬ versionLt r q) := by
  constructor
  · constructor
    · intro h
      cases hf : s.history.filter (matchesGet ns key lb) with
      | nil => rfl
      | cons a l =>
        exfalso
        unfold get at h
        rw [hf] at h
        exact foldl_pickLater_ne_none l a h
    · intro h
      unfold get
      rw [h]
      rfl
  · intro r h
    unfold get at h
    obtain ⟨hmem, hmax, -⟩ :=
      foldl_pickLater_spec (s.history.filter (matchesGet ns key lb)) none r h
    have hmem' : r ∈ s.history.filter (matchesGet ns key lb) := by
      rcases hmem with hm | hm
      · exact hm
      · cases hm
    constructor
    · exact ⟨(List.mem_filter.mp hmem').1, (List.mem_filter.mp hmem').2⟩
    · intro q hq hmq
      exact hmax q (List.mem_filter.mpr ⟨hq, hmq⟩)

/-- Witness for C6: in a history with versions (2,0), (3,0) and (3,1) of
"k", the lookup at ceiling 3 returns the (3,1) record — the tx-number
tie-break within block 3 — and nothing in range exceeds it. -/
theorem get_returns_latest_witness :
    ((⟨"ns", "k", 3, 1, some [3], true, "t3"⟩ : WriteRecord) ∈
        ([⟨"ns", "k", 2, 0, some [1], false, "t1"⟩,
          ⟨"ns", "k", 3, 0, some [2], false, "t2"⟩,
          ⟨"ns", "k", 3, 1, some [3], true, "t3"⟩] : List WriteRecord) ∧
      matchesGet "ns" "k" 3 ⟨"ns", "k", 3, 1, some [3], true, "t3"⟩ = true) ∧
    ∀ q ∈ ([⟨"ns", "k", 2, 0, some [1], false, "t1"⟩,
          ⟨"ns", "k", 3, 0, some [2], false, "t2"⟩,
          ⟨"ns", "k", 3, 1, some [3], true, "t3"⟩] : List WriteRecord),
      matchesGet "ns" "k" 3 q = true →
        ¬ versionLt ⟨"ns", "k", 3, 1, some [3], true, "t3"⟩ q := by
  exact (get_returns_latest
    ⟨[⟨"ns", "k", 2, 0, some [1], false, "t1"⟩,
      ⟨"ns", "k", 3, 0, some [2], false, "t2"⟩,
      ⟨"ns", "k", 3, 1, some [3], true, "t3"⟩], some 3⟩ "ns" "k" 3).2
    ⟨"ns", "k", 3, 1, some [3], true, "t3"⟩ (by decide)

/-- C10: a non-empty `BatchInsert` advances the progress to the maximum of
the current value and the *first* record's block number only; the block
numbers of later records in the batch do not influence the progress (a
batch `[block 2, block 5]` leaves the progress at 2). -/
theorem batchInsert_progress_first_record (s : DbState) (w0 : WriteRecord)
    (rest rest' : List WriteRecord) :
    lastProcessedBlock (batchInsert noFault (w0 :: rest) s).2 =
      max (lastProcessedBlock s) w0.BlockNum ∧
    ((batchInsert noFault (w0 :: rest) s).2).progress =
      ((batchInsert noFault (w0 :: rest') s).2).progress ∧
    lastProcessedBlock (batchInsert noFault
        [⟨"ns", "a", 2, 0, none, false, "t1"⟩, ⟨"ns", "b", 5, 0, none, false, "t2"⟩]
        (⟨[], none⟩ : DbState)).2 = 2 := by
  refine ⟨?_, ?_, by rfl⟩
  · rw [batchInsert_noFault_cons, lastProcessedBlock_markProcessed]
    rfl
  · rw [batchInsert_noFault_cons, batchInsert_noFault_cons]
    exact markProcessed_progress_eq w0.BlockNum _ _ s.progress

/-!
### Claim theorems for `WaitUntilSynced`
-/

/-- Counterexample to C9 as stated: five consecutive remote-height fetch
failures make `WaitUntilSynced` return the fetch error — a non-timeout
failure — because the backoff doubling is checked against 30 seconds and
is not capped there. -/
theorem waitUntilSynced_surfaces_fetch_error :
    waitUntilSynced (List.replicate 5 (SyncEvent.tick none none)) 1 =
      SyncOutcome.fetchError ∧
    SyncOutcome.fetchError ≠ SyncOutcome.timeout ∧
    waitUntilSynced (List.replicate 4 (SyncEvent.tick none none)) 1 =
      SyncOutcome.pending := by
  exact ⟨rfl, by decide, rfl⟩

/-- C9 (amended): `WaitUntilSynced` succeeds at the first poll where the
local height is at least the remote height, returns a timeout error when
the context deadline fires, and retries a remote-height fetch failure with
doubled backoff only while the doubled backoff stays below 30 seconds —
once it reaches 30 seconds the fetch error is returned to the caller as a
non-timeout failure.  A successful fetch resets the backoff to 1 second. -/
theorem waitUntilSynced_behavior (rest : List SyncEvent)
    (backoff remote loc : Nat) (l : Option Nat) :
    (waitUntilSynced (SyncEvent.ctxDone :: rest) backoff =
      SyncOutcome.timeout) ∧
    (remote ≤ loc →
      waitUntilSynced (SyncEvent.tick (some remote) (some loc) :: rest) backoff =
        SyncOutcome.synced) ∧
    (loc < remote →
      waitUntilSynced (SyncEvent.tick (some remote) (some loc) :: rest) backoff =
        waitUntilSynced rest 1) ∧
    (backoff * 2 < 30 →
      waitUntilSynced (SyncEvent.tick none l :: rest) backoff =
        waitUntilSynced rest (backoff * 2)) ∧
    (30 ≤ backoff * 2 →
      waitUntilSynced (SyncEvent.tick none l :: rest) backoff =
        SyncOutcome.fetchError) := by
  refine ⟨rfl, ?_, ?_, ?_, ?_⟩
  · intro h
    simp [waitUntilSynced, h]
  · intro h
    have : ¬ remote ≤ loc := by omega
    simp [waitUntilSynced, this]
  · intro h
    have : ¬ 30 ≤ backoff * 2 := by omega
    simp [waitUntilSynced, this]
  · intro h
    simp [waitUntilSynced, h]

/-- Witness for the amended C9 at concrete inputs. -/
theorem waitUntilSynced_behavior_witness :
    waitUntilSynced [SyncEvent.ctxDone] 1 = SyncOutcome.timeout ∧
    waitUntilSynced [SyncEvent.tick (some 2) (some 3)] 1 = SyncOutcome.synced ∧
    waitUntilSynced [SyncEvent.tick none none] 16 = SyncOutcome.fetchError ∧
    waitUntilSynced [SyncEvent.tick none none] 2 = waitUntilSynced [] 4 := by
  refine ⟨?_, ?_, ?_, ?_⟩
  · exact (waitUntilSynced_behavior [] 1 2 3 none).1
  · exact (waitUntilSynced_behavior [] 1 2 3 none).2.1 (by decide)
  · exact (waitUntilSynced_behavior [] 16 2 3 none).2.2.2.2 (by decide)
  · exact (waitUntilSynced_behavior [] 2 2 3 none).2.2.2.1 (by decide)

end HackyFabric

